import Mathlib

/-!
Verification of the corpus-to-metadata pipeline of `mcp-docs-generator`.

The development shallowly embeds the pure core of the pipeline:
* the token-budgeted corpus packer (the inline loop of `summarizeDocuments` in
  `src/llm-summarizer.ts` and the refactored `combineDocumentsWithinTokenLimit`),
* the name canonicalizer and identifier budget validator
  (`convertToKebabCase`, `generateToolName`, `validateMcpToolNameLength`,
  `validateMcpToolName` in `src/metadata-generator.ts`),
* the fenced-block response extraction (regex on the LLM response text),
* title extraction and metadata synthesis
  (`extractTitleFromMarkdown`, `createToolPath`, `generateMcpToolMetadata`).

Modelling conventions: JavaScript strings are modelled as Lean `String`
(lengths count code points), the fractional token estimates are modelled
exactly in tenths of a token over `Nat` (the multiplier 1.3 is exactly
13/10, so all budget comparisons are preserved verbatim),
lower-casing is modelled on the ASCII range, and the
Node `path.relative` / `path.basename` library calls are modelled as pure
POSIX-style segment arithmetic (the claims below never depend on their
internals). Fallible functions return `Except`.
-/

namespace McpDocs

/-- JavaScript whitespace class: the character set matched by the regex
class backslash-s (and removed by `String.prototype.trim`). -/
def isJsWs (c : Char) : Bool :=
  c.toNat = 32 || c.toNat = 9 || c.toNat = 10 || c.toNat = 11 ||
  c.toNat = 12 || c.toNat = 13 || c.toNat = 0xa0 || c.toNat = 0x1680 ||
  (0x2000 ≤ c.toNat && c.toNat ≤ 0x200a) || c.toNat = 0x2028 ||
  c.toNat = 0x2029 || c.toNat = 0x202f || c.toNat = 0x205f ||
  c.toNat = 0x3000 || c.toNat = 0xfeff

/-- Membership in the CJK / Japanese Unicode ranges tested by
`JAPANESE_CHAR_PATTERN` in `llm-summarizer.ts`. -/
def isJapaneseChar (c : Char) : Bool :=
  (0x3000 ≤ c.toNat && c.toNat ≤ 0x303f) ||
  (0x3040 ≤ c.toNat && c.toNat ≤ 0x309f) ||
  (0x30a0 ≤ c.toNat && c.toNat ≤ 0x30ff) ||
  (0xff00 ≤ c.toNat && c.toNat ≤ 0xff9f) ||
  (0x4e00 ≤ c.toNat && c.toNat ≤ 0x9faf)

/-- Whether the text contains any Japanese character
(the `hasJapanese` test inside `estimateTokens`). -/
def hasJapanese (s : String) : Bool := s.data.any isJapaneseChar

/-- Number of maximal whitespace runs in a character list; the boolean
argument records whether the previous character was whitespace. -/
def wsRunsAux : Bool → List Char → Nat
  | _, [] => 0
  | prev, c :: rest =>
    if isJsWs c then (if prev then 0 else 1) + wsRunsAux true rest
    else wsRunsAux false rest

/-- Length of `text.split(/\s+/)` in JavaScript: one field more than the
number of maximal whitespace runs. -/
def wordCount (s : String) : Nat := wsRunsAux false s.data + 1

/-- Token-cost estimate of a text (`estimateTokens` in
`src/llm-summarizer.ts`, `estimateTokenCount` in the refactored module):
character count for Japanese-containing text, otherwise 1.3 tokens per
split field. Token quantities are represented exactly in tenths of a
token (the multiplier 1.3 is exactly 13/10), so every comparison against
the ceiling is the same as with rational arithmetic. -/
def estimateTokens (s : String) : Nat :=
  if hasJapanese s then 10 * s.length else 13 * wordCount s

/-- `MAX_PROMPT_TOKENS`: the 150,000-token prompt ceiling, in tenths of
a token. -/
def maxPromptTokens : Nat := 1500000

/-- `maxChars` in the truncation branch: the ceiling reused as a
character count (1 character assumed to be 1 token). -/
def maxTruncChars : Nat := 150000

/-- `DOCUMENT_SEPARATOR`, the fixed separator between packed documents. -/
def documentSep : String := "\n\n---\n\n"

/-- `TRUNCATION_MESSAGE`, the fixed truncation marker. -/
def truncationMessage : String := "\n\n[Content truncated because it was too long]"

/-- `DocumentInfo` from `src/llm-summarizer.ts`. The optional fields are
`Option String`; the truthiness tests in the code also treat `some ""` as
absent, which the definitions below reproduce. -/
structure DocumentInfo where
  path : String
  content : String
  title : Option String
  description : Option String
deriving DecidableEq, Repr

/-- The `titleInfo` line of the serialized form of a document:
`"Title: " + title + "\n"` when `doc.title` is truthy, else empty. -/
def titleInfo (d : DocumentInfo) : String :=
  match d.title with
  | some t => if t = "" then "" else "Title: " ++ t ++ "\n"
  | none => ""

/-- The serialized form of a document,
`"File path: " + path + "\n" + titleInfo + "\n" + content`. -/
def serializeDoc (d : DocumentInfo) : String :=
  "File path: " ++ d.path ++ "\n" ++ titleInfo d ++ "\n" ++ d.content

/-- Result triple of the corpus packer: payload, running token estimate
(in tenths of a token), and count of packed documents. -/
structure PackResult where
  combinedContent : String
  totalTokens : Nat
  usedDocuments : Nat
deriving DecidableEq, Repr

/-- The packing loop inlined in `summarizeDocuments`
(`src/llm-summarizer.ts` lines 67-94), with the accumulated payload,
token total and used count as explicit state. In its truncation branch
the running token total is left unchanged. -/
def summarizePackAux : List DocumentInfo → String → Nat → Nat → PackResult
  | [], c, t, u => ⟨c, t, u⟩
  | d :: ds, c, t, u =>
    let docContent := serializeDoc d
    let docTokens := estimateTokens docContent
    if maxPromptTokens < t + docTokens then
      if 0 < u then ⟨c, t, u⟩
      else ⟨docContent.take maxTruncChars ++ truncationMessage, t, 1⟩
    else
      summarizePackAux ds
        (if c = "" then docContent else c ++ documentSep ++ docContent)
        (t + docTokens) (u + 1)

/-- The document-packing phase of `summarizeDocuments` in
`src/llm-summarizer.ts`, started on empty accumulators. -/
def summarizePack (documents : List DocumentInfo) : PackResult :=
  summarizePackAux documents "" 0 0

/-- The refactored packer `combineDocumentsWithinTokenLimit`
(unnamed module, lines 73-114): identical loop, except that the
truncation branch also sets the running token total to `maxChars`. -/
def combineAux : List DocumentInfo → String → Nat → Nat → PackResult
  | [], c, t, u => ⟨c, t, u⟩
  | d :: ds, c, t, u =>
    let docContent := serializeDoc d
    let docTokens := estimateTokens docContent
    if maxPromptTokens < t + docTokens then
      if 0 < u then ⟨c, t, u⟩
      else ⟨docContent.take maxTruncChars ++ truncationMessage,
            10 * maxTruncChars, 1⟩
    else
      combineAux ds
        (if c = "" then docContent else c ++ documentSep ++ docContent)
        (t + docTokens) (u + 1)

/-- `combineDocumentsWithinTokenLimit`, started on empty accumulators. -/
def combineDocumentsWithinTokenLimit (documents : List DocumentInfo) : PackResult :=
  combineAux documents "" 0 0

/-- Summed token estimate of the serialized forms of a document list,
in tenths of a token. -/
def docsCost (l : List DocumentInfo) : Nat :=
  (l.map (fun d => estimateTokens (serializeDoc d))).sum

/-- Whether a character belongs to the canonical output alphabet
`[a-z0-9-]` kept by `NON_ALPHANUMERIC_HYPHEN_PATTERN`, by code point:
lower-case letters 97-122, digits 48-57, hyphen 45. -/
def isKebabChar (c : Char) : Bool :=
  (97 ≤ c.toNat && c.toNat ≤ 122) || (48 ≤ c.toNat && c.toNat ≤ 57) ||
  c.toNat = 45

/-- `replace(SPACE_PATTERN, '-')`: each maximal run of whitespace is
replaced by a single hyphen; the boolean argument records whether the
previous character was whitespace. -/
def collapseWsAux : Bool → List Char → List Char
  | _, [] => []
  | prev, c :: rest =>
    if isJsWs c then
      (if prev then [] else ['-']) ++ collapseWsAux true rest
    else c :: collapseWsAux false rest

/-- `convertToKebabCase` from `src/metadata-generator.ts`: lower-case,
collapse each whitespace run to one hyphen, strip everything outside
`[a-z0-9-]`. -/
def convertToKebabCase (projectName : String) : String :=
  String.mk (((projectName.data.map Char.toLower) |> collapseWsAux false).filter
    (fun c => isKebabChar c))

/-- `DEFAULT_TOOL_NAME`. -/
def defaultToolName : String := "search-docs"

/-- `generateToolName` from `src/metadata-generator.ts`. -/
def generateToolName (projectName : String) : String :=
  let kebabProjectName := convertToKebabCase projectName
  if kebabProjectName = "" then defaultToolName
  else "search-" ++ kebabProjectName ++ "-docs"

/-- `MCP_TOOL_NAME_MAX_LENGTH`. -/
def mcpToolNameMaxLength : Nat := 64

/-- The full composite MCP tool name
`mcp__<serverName>__<toolName>`. -/
def mcpFullName (serverName toolName : String) : String :=
  "mcp__" ++ serverName ++ "__" ++ toolName

/-- The diagnostic message thrown by `validateMcpToolNameLength`,
built exactly as the source template interpolates it. -/
def errMessage (serverName toolName : String) : String :=
  "MCPツール名が64文字制限を超えています: \"" ++ mcpFullName serverName toolName ++
  "\" (" ++ toString (mcpFullName serverName toolName).length ++ "文字)\n" ++
  "制限: " ++ toString mcpToolNameMaxLength ++ "文字" ++ "\n" ++
  "サーバー名: \"" ++ serverName ++ "\" (" ++ toString serverName.length ++ "文字)\n" ++
  "ツール名: \"" ++ toolName ++ "\" (" ++ toString toolName.length ++ "文字)\n" ++
  "プロジェクト名またはツール名を短くしてください。"

/-- `validateMcpToolNameLength`: errs with the diagnostic message when
the composite name exceeds 64 characters, otherwise returns it. -/
def validateMcpToolNameLength (serverName toolName : String) : Except String String :=
  let fullMcpToolName := mcpFullName serverName toolName
  if mcpToolNameMaxLength < fullMcpToolName.length then
    Except.error (errMessage serverName toolName)
  else Except.ok fullMcpToolName

/-- The server-name component used by `validateMcpToolName`:
the canonicalized project name, or `default-server` when it is empty. -/
def serverNameOf (projectName : String) : String :=
  if convertToKebabCase projectName = "" then "default-server"
  else convertToKebabCase projectName

/-- `validateMcpToolName` from `src/metadata-generator.ts`:
derives the server name from the project name and checks the composite
length. -/
def validateMcpToolName (projectName toolName : String) : Except String Unit :=
  match validateMcpToolNameLength (serverNameOf projectName) toolName with
  | Except.error e => Except.error e
  | Except.ok _ => Except.ok ()

/-- Whether an `Except` value is an error. -/
def exceptErr {ε α : Type} : Except ε α → Bool
  | Except.error _ => true
  | Except.ok _ => false

/-- `a` occurs contiguously inside `b`. -/
def occursIn (a b : String) : Prop := ∃ x y, x ++ a ++ y = b

/-- `String.prototype.trim`: strip whitespace from both ends. -/
def jsTrim (l : List Char) : List Char :=
  ((l.dropWhile fun c => isJsWs c).reverse.dropWhile fun c => isJsWs c).reverse

/-- A character matched by the regex dot (anything but a line
terminator). -/
def isDotChar (c : Char) : Bool :=
  !(c.toNat = 10 || c.toNat = 13 || c.toNat = 0x2028 || c.toNat = 0x2029)

/-- Capture group of `MARKDOWN_TITLE_PATTERN` — the JavaScript regex
hash, whitespace-plus, dot-plus anchored at both ends — applied to a
whole line: a hash, a non-empty whitespace run, then the rest of the
line, which must be non-empty and free of line terminators (the greedy
whitespace run backtracks by at most one character when the remainder
would otherwise be empty). -/
def headingMatch (l : List Char) : Option (List Char) :=
  match l with
  | [] => none
  | c :: rest =>
    if c = '#' then
      let w := rest.takeWhile fun c => isJsWs c
      let r := rest.dropWhile fun c => isJsWs c
      if w = [] then none
      else if r = [] then
        match w.getLast? with
        | some lastc => if 2 ≤ w.length && isDotChar lastc then some [lastc] else none
        | none => none
      else if r.all isDotChar then some r else none
    else none

/-- Structural model of JavaScript `split` on a single separator
character: the list of (possibly empty) fields. -/
def splitOnChar (sep : Char) : List Char → List (List Char)
  | [] => [[]]
  | c :: rest =>
    if c = sep then [] :: splitOnChar sep rest
    else
      match splitOnChar sep rest with
      | f :: fs => (c :: f) :: fs
      | [] => [[c]]

/-- The lines of a text, as split by `content.split` on the newline
character. -/
def linesOf (content : String) : List String :=
  (splitOnChar (Char.ofNat 10) content.data).map String.mk

/-- Join a list of strings with a separator between consecutive
elements. -/
def joinWith (sep : String) : List String → String
  | [] => ""
  | [x] => x
  | x :: y :: rest => x ++ sep ++ joinWith sep (y :: rest)

/-- The line loop of `extractTitleFromMarkdown`: trim each line, skip
blank lines, return the trimmed capture of the first line whose trimmed
form matches the heading pattern with a truthy capture. -/
def extractTitleLoop : List String → String
  | [] => ""
  | line :: rest =>
    let trimmedLine := String.mk (jsTrim line.data)
    if trimmedLine = "" then extractTitleLoop rest
    else
      match headingMatch trimmedLine.data with
      | some g => if String.mk g = "" then extractTitleLoop rest else String.mk (jsTrim g)
      | none => extractTitleLoop rest

/-- `extractTitleFromMarkdown` from the markdown parser module:
the first line matching the heading pattern yields the title, absence
yields the empty string. -/
def extractTitleFromMarkdown (content : String) : String :=
  if content = "" then "" else extractTitleLoop (linesOf content)

/-- Non-empty slash-separated segments of a POSIX path. -/
def splitPath (p : String) : List String :=
  ((splitOnChar (Char.ofNat 47) p.data).map String.mk).filter fun s => s ≠ ""

/-- Resolve `.` and `..` segments. -/
def resolveSegs (segs : List String) : List String :=
  segs.foldl
    (fun acc s => if s = "." then acc else if s = ".." then acc.dropLast else acc ++ [s])
    []

/-- Drop the common leading segments of two resolved paths. -/
def dropCommon : List String → List String → List String × List String
  | a :: as, b :: bs => if a = b then dropCommon as bs else (a :: as, b :: bs)
  | as, bs => (as, bs)

/-- Model of Node `path.relative` for absolute POSIX paths: resolve both
paths to segment lists, drop the common prefix, and climb out of the
remaining source segments. The claims below never depend on its
internals, only on it being a pure function of the two paths. -/
def pathRelative (fromDir toPath : String) : String :=
  let pair := dropCommon (resolveSegs (splitPath fromDir)) (resolveSegs (splitPath toPath))
  joinWith "/" (pair.1.map (fun _ => "..") ++ pair.2)

/-- Model of Node `path.basename`: the last non-empty segment. -/
def pathBasename (p : String) : String :=
  ((splitPath p).getLast?).getD ""

/-- `ToolPath` from `src/metadata-generator.ts`; the optional `title`
is `none` where the source stores `undefined`. -/
structure ToolPath where
  path : String
  description : String
  originalPath : String
  title : Option String
deriving DecidableEq, Repr

/-- `createToolPath` from `src/metadata-generator.ts`: relative path,
description defaulting to `Document: <basename>` when absent or empty,
original path, and a title freshly extracted from the content
(`title || undefined` maps the empty extraction to no title). -/
def createToolPath (file : DocumentInfo) (docsRootDir : String) : ToolPath :=
  let relativePath := pathRelative docsRootDir file.path
  let title := extractTitleFromMarkdown file.content
  ⟨relativePath,
    (match file.description with
     | some d => if d = "" then "Document: " ++ pathBasename relativePath else d
     | none => "Document: " ++ pathBasename relativePath),
    file.path,
    if title = "" then none else some title⟩

/-- `SummarizationResult` from `src/llm-summarizer.ts`. -/
structure SummarizationResult where
  projectName : String
  summary : String
  topics : List String
deriving DecidableEq, Repr

/-- `generateToolDescription` from `src/metadata-generator.ts`. -/
def generateToolDescription (summarizationResult : SummarizationResult) : String :=
  (summarizationResult.topics.foldl (fun acc topic => acc ++ "- " ++ topic ++ "\n")
    (summarizationResult.summary ++ "\n\n" ++
     "This tool provides access to documents on the following main topics:\n")) ++
  "\nYou can retrieve information by specifying a specific document path."

/-- `McpToolMetadata` from `src/metadata-generator.ts`. -/
structure McpToolMetadata where
  toolName : String
  toolDescription : String
  availablePaths : List ToolPath
deriving DecidableEq, Repr

/-- `generateMcpToolMetadata` from `src/metadata-generator.ts`:
derives the tool name, validates the composite length (propagating its
failure), and maps every markdown file to a `ToolPath`. -/
def generateMcpToolMetadata (projectName : String)
    (summarizationResult : SummarizationResult)
    (markdownFiles : List DocumentInfo) (docsRootDir : String) :
    Except String McpToolMetadata :=
  let toolName := generateToolName projectName
  match validateMcpToolName projectName toolName with
  | Except.error e => Except.error e
  | Except.ok _ =>
    Except.ok
      ⟨toolName, generateToolDescription summarizationResult,
        markdownFiles.map fun file => createToolPath file docsRootDir⟩

/-- The backtick character. -/
def tickChar : Char := Char.ofNat 96

/-- Whether a character list starts with a triple-backtick marker. -/
def threeTicks : List Char → Bool
  | a :: b :: c :: _ => a = tickChar && b = tickChar && c = tickChar
  | _ => false

/-- Whether a character list starts with the four letters of the
`json` tag. -/
def startsWithJson : List Char → Bool
  | a :: b :: c :: d :: _ => a = 'j' && b = 's' && c = 'o' && d = 'n'
  | _ => false

/-- Split at the first triple-backtick marker: returns the part before
it and the part after it. -/
def splitAtFence : List Char → Option (List Char × List Char)
  | [] => none
  | c :: rest =>
    if threeTicks (c :: rest) then some ([], rest.drop 2)
    else
      match splitAtFence rest with
      | some (a, b) => some (c :: a, b)
      | none => none

/-- The capture of `JSON_CODE_BLOCK_PATTERN` — the JavaScript regex
matching a triple-backtick fence optionally tagged `json`, with a lazily
captured interior surrounded by greedy whitespace runs — at its leftmost
match: scan for the first triple backtick from which the whole pattern
matches, skip an immediately following `json` tag, take the text up to
the next triple backtick, and trim whitespace from both ends (which is
what the greedy-lazy-greedy combination captures); when that backtick
never closes, resume scanning at the next character. -/
def extractFenced : List Char → Option (List Char)
  | [] => none
  | c :: rest =>
    if threeTicks (c :: rest) then
      let afterOpen := rest.drop 2
      let afterJson := if startsWithJson afterOpen then afterOpen.drop 4 else afterOpen
      match splitAtFence afterJson with
      | some (body, _) => some (jsTrim body)
      | none => extractFenced rest
    else extractFenced rest

/-- The text handed to `JSON.parse` by `parseJsonFromLlmResponse` /
`summarizeDocuments`: the first fenced interior when a fence is present,
the raw response text otherwise. -/
def parsableText (resultText : String) : String :=
  match extractFenced resultText.data with
  | some interior => String.mk interior
  | none => resultText

/-! ## Helper lemmas about the canonicalizer -/

lemma isKebabChar_iff (c : Char) :
    isKebabChar c = true ↔
      (97 ≤ c.toNat ∧ c.toNat ≤ 122) ∨ (48 ≤ c.toNat ∧ c.toNat ≤ 57) ∨
      c.toNat = 45 := by
  simp [isKebabChar]
  tauto

lemma toLower_of_kebab {c : Char} (h : isKebabChar c = true) :
    Char.toLower c = c := by
  rw [isKebabChar_iff] at h
  unfold Char.toLower
  rw [if_neg]
  omega

lemma not_ws_of_kebab {c : Char} (h : isKebabChar c = true) :
    isJsWs c = false := by
  rw [isKebabChar_iff] at h
  simp [isJsWs]
  omega

lemma collapseWsAux_id {l : List Char} (h : ∀ c ∈ l, isJsWs c = false) :
    ∀ b, collapseWsAux b l = l := by
  induction l with
  | nil => intro b; rfl
  | cons c rest ih =>
    intro b
    have hc := h c (List.mem_cons_self c rest)
    simp only [collapseWsAux, hc, Bool.false_eq_true, if_false]
    rw [ih fun x hx => h x (List.mem_cons_of_mem c hx)]

lemma map_toLower_id {l : List Char} (h : ∀ c ∈ l, isKebabChar c = true) :
    l.map Char.toLower = l := by
  induction l with
  | nil => rfl
  | cons c rest ih =>
    simp only [List.map_cons]
    rw [toLower_of_kebab (h c (List.mem_cons_self c rest)),
      ih fun x hx => h x (List.mem_cons_of_mem c hx)]

/-- Every character of a canonicalized name is in `[a-z0-9-]`. -/
lemma convertToKebabCase_mem {s : String} :
    ∀ c ∈ (convertToKebabCase s).data, isKebabChar c = true := by
  intro c hc
  have : (convertToKebabCase s).data =
      ((s.data.map Char.toLower |> collapseWsAux false).filter
        fun c => isKebabChar c) := rfl
  rw [this] at hc
  exact (List.mem_filter.mp hc).2

/-- The canonicalizer is idempotent. -/
lemma convertToKebabCase_idem (s : String) :
    convertToKebabCase (convertToKebabCase s) = convertToKebabCase s := by
  have hmem := @convertToKebabCase_mem s
  show String.mk _ = convertToKebabCase s
  rw [map_toLower_id hmem,
    collapseWsAux_id (fun c hc => not_ws_of_kebab (hmem c hc)) false,
    List.filter_eq_self.mpr hmem]

/-- Claim C4: for all strings, the canonicalized form
`convertToKebabCase s` only contains characters of the alphabet
`[a-z0-9-]`, and canonicalization is idempotent. -/
theorem canonicalize_alphabet_idem :
    (∀ s : String, (convertToKebabCase s).data.all isKebabChar = true) ∧
    (∀ s : String,
      convertToKebabCase (convertToKebabCase s) = convertToKebabCase s) := by
  constructor
  · intro s
    exact List.all_eq_true.mpr convertToKebabCase_mem
  · exact convertToKebabCase_idem

/-! ## Tool name derivation -/

lemma generateToolName_of_empty {p : String} (h : convertToKebabCase p = "") :
    generateToolName p = defaultToolName := by
  simp [generateToolName, h]

lemma generateToolName_of_ne {p : String} (h : convertToKebabCase p ≠ "") :
    generateToolName p = "search-" ++ convertToKebabCase p ++ "-docs" := by
  simp [generateToolName, h]

/-- Claim C5: `generateToolName` returns the fixed fallback on an empty
canonical form and `search-<canonical>-docs` otherwise, always produces
a non-empty name over the `[a-z0-9-]` alphabet carrying the fixed
leading token `search-` and trailing token `-docs`, and agrees with the
two concrete examples of the spec. -/
theorem generateToolName_spec :
    (∀ p, convertToKebabCase p = "" → generateToolName p = defaultToolName) ∧
    (∀ p, convertToKebabCase p ≠ "" →
      generateToolName p = "search-" ++ convertToKebabCase p ++ "-docs") ∧
    (∀ p, (generateToolName p).data.all isKebabChar = true) ∧
    (∀ p, generateToolName p ≠ "") ∧
    (∀ p, ∃ r, generateToolName p = "search-" ++ r) ∧
    (∀ p, ∃ r, generateToolName p = r ++ "-docs") ∧
    generateToolName "" = "search-docs" ∧
    generateToolName "My Project!!" = "search-my-project-docs" := by
  refine ⟨fun p => generateToolName_of_empty,
    fun p => generateToolName_of_ne, ?_, ?_, ?_, ?_, by decide, by decide⟩
  · intro p
    by_cases h : convertToKebabCase p = ""
    · rw [generateToolName_of_empty h]; decide
    · rw [generateToolName_of_ne h]
      rw [List.all_eq_true]
      intro c hc
      simp only [String.data_append, List.mem_append] at hc
      rcases hc with (hc | hc) | hc
      · revert c; decide
      · exact convertToKebabCase_mem c hc
      · revert c; decide
  · intro p
    by_cases h : convertToKebabCase p = ""
    · rw [generateToolName_of_empty h]; decide
    · rw [generateToolName_of_ne h]
      intro hcontra
      have hlen := congrArg String.length hcontra
      simp only [String.length_append] at hlen
      have h7 : ("search-" : String).length = 7 := rfl
      have h5 : ("-docs" : String).length = 5 := rfl
      have h0 : ("" : String).length = 0 := rfl
      omega
  · intro p
    by_cases h : convertToKebabCase p = ""
    · exact ⟨"docs", by rw [generateToolName_of_empty h]; rfl⟩
    · exact ⟨convertToKebabCase p ++ "-docs", by
        rw [generateToolName_of_ne h, String.append_assoc]⟩
  · intro p
    by_cases h : convertToKebabCase p = ""
    · exact ⟨"search", by rw [generateToolName_of_empty h]; rfl⟩
    · exact ⟨"search-" ++ convertToKebabCase p, by
        rw [generateToolName_of_ne h]⟩

/-! ## Identifier budget validator -/

lemma validateMcpToolName_err_iff (p t : String) :
    exceptErr (validateMcpToolName p t) = true ↔
      mcpToolNameMaxLength < (mcpFullName (serverNameOf p) t).length := by
  unfold validateMcpToolName validateMcpToolNameLength
  by_cases h : mcpToolNameMaxLength < (mcpFullName (serverNameOf p) t).length
  · simp only [if_pos h]
    exact ⟨fun _ => h, fun _ => rfl⟩
  · simp only [if_neg h]
    exact ⟨fun hc => absurd hc (by simp [exceptErr]), fun hc => absurd hc h⟩

/-- Claim C3: `validateMcpToolName` fails exactly when the composite
`mcp__<serverName>__<toolName>` is longer than 64 characters, with the
server name derived from the project name (default token on empty
canonicalization); the boundary is inclusive, witnessed at composite
lengths 64 (passes) and 65 (fails). -/
theorem validateMcpToolName_boundary :
    (∀ p t, exceptErr (validateMcpToolName p t) = true ↔
      mcpToolNameMaxLength < (mcpFullName (serverNameOf p) t).length) ∧
    (mcpFullName (serverNameOf "short") (String.mk (List.replicate 52 'a'))).length = 64 ∧
    exceptErr (validateMcpToolName "short" (String.mk (List.replicate 52 'a'))) = false ∧
    (mcpFullName (serverNameOf "short") (String.mk (List.replicate 53 'a'))).length = 65 ∧
    exceptErr (validateMcpToolName "short" (String.mk (List.replicate 53 'a'))) = true := by
  exact ⟨validateMcpToolName_err_iff, by decide, by decide, by decide, by decide⟩

/-! ## The diagnostic payload of the NameTooLong failure -/

/-- Claim C6: whenever the length validator fails, the error it emits is
the diagnostic message, and that message contains, as contiguous pieces:
the composite name, the decimal rendering of its length, the 64-unit
ceiling, the server-name component and its length, the tool-name
component and its length, and the fixed corrective instruction. -/
theorem validate_error_payload (s t : String)
    (h : mcpToolNameMaxLength < (mcpFullName s t).length) :
    validateMcpToolNameLength s t = Except.error (errMessage s t) ∧
    occursIn (mcpFullName s t) (errMessage s t) ∧
    occursIn (toString (mcpFullName s t).length) (errMessage s t) ∧
    occursIn ("制限: " ++ toString mcpToolNameMaxLength ++ "文字") (errMessage s t) ∧
    occursIn s (errMessage s t) ∧
    occursIn (toString s.length) (errMessage s t) ∧
    occursIn t (errMessage s t) ∧
    occursIn (toString t.length) (errMessage s t) ∧
    occursIn "プロジェクト名またはツール名を短くしてください。" (errMessage s t) := by
  refine ⟨by unfold validateMcpToolNameLength; rw [if_pos h], ?_, ?_, ?_, ?_, ?_, ?_, ?_, ?_⟩
  · exact ⟨"MCPツール名が64文字制限を超えています: \"",
      "\" (" ++ toString (mcpFullName s t).length ++ "文字)\n" ++
      "制限: " ++ toString mcpToolNameMaxLength ++ "文字" ++ "\n" ++
      "サーバー名: \"" ++ s ++ "\" (" ++ toString s.length ++ "文字)\n" ++
      "ツール名: \"" ++ t ++ "\" (" ++ toString t.length ++ "文字)\n" ++
      "プロジェクト名またはツール名を短くしてください。",
      by apply String.ext; simp [errMessage, String.data_append, List.append_assoc]⟩
  · exact ⟨"MCPツール名が64文字制限を超えています: \"" ++ mcpFullName s t ++ "\" (",
      "文字)\n" ++
      "制限: " ++ toString mcpToolNameMaxLength ++ "文字" ++ "\n" ++
      "サーバー名: \"" ++ s ++ "\" (" ++ toString s.length ++ "文字)\n" ++
      "ツール名: \"" ++ t ++ "\" (" ++ toString t.length ++ "文字)\n" ++
      "プロジェクト名またはツール名を短くしてください。",
      by apply String.ext; simp [errMessage, String.data_append, List.append_assoc]⟩
  · exact ⟨"MCPツール名が64文字制限を超えています: \"" ++ mcpFullName s t ++ "\" (" ++
      toString (mcpFullName s t).length ++ "文字)\n",
      "\n" ++
      "サーバー名: \"" ++ s ++ "\" (" ++ toString s.length ++ "文字)\n" ++
      "ツール名: \"" ++ t ++ "\" (" ++ toString t.length ++ "文字)\n" ++
      "プロジェクト名またはツール名を短くしてください。",
      by apply String.ext; simp [errMessage, String.data_append, List.append_assoc]⟩
  · exact ⟨"MCPツール名が64文字制限を超えています: \"" ++ mcpFullName s t ++ "\" (" ++
      toString (mcpFullName s t).length ++ "文字)\n" ++
      "制限: " ++ toString mcpToolNameMaxLength ++ "文字" ++ "\n" ++ "サーバー名: \"",
      "\" (" ++ toString s.length ++ "文字)\n" ++
      "ツール名: \"" ++ t ++ "\" (" ++ toString t.length ++ "文字)\n" ++
      "プロジェクト名またはツール名を短くしてください。",
      by apply String.ext; simp [errMessage, String.data_append, List.append_assoc]⟩
  · exact ⟨"MCPツール名が64文字制限を超えています: \"" ++ mcpFullName s t ++ "\" (" ++
      toString (mcpFullName s t).length ++ "文字)\n" ++
      "制限: " ++ toString mcpToolNameMaxLength ++ "文字" ++ "\n" ++
      "サーバー名: \"" ++ s ++ "\" (",
      "文字)\n" ++
      "ツール名: \"" ++ t ++ "\" (" ++ toString t.length ++ "文字)\n" ++
      "プロジェクト名またはツール名を短くしてください。",
      by apply String.ext; simp [errMessage, String.data_append, List.append_assoc]⟩
  · exact ⟨"MCPツール名が64文字制限を超えています: \"" ++ mcpFullName s t ++ "\" (" ++
      toString (mcpFullName s t).length ++ "文字)\n" ++
      "制限: " ++ toString mcpToolNameMaxLength ++ "文字" ++ "\n" ++
      "サーバー名: \"" ++ s ++ "\" (" ++ toString s.length ++ "文字)\n" ++ "ツール名: \"",
      "\" (" ++ toString t.length ++ "文字)\n" ++
      "プロジェクト名またはツール名を短くしてください。",
      by apply String.ext; simp [errMessage, String.data_append, List.append_assoc]⟩
  · exact ⟨"MCPツール名が64文字制限を超えています: \"" ++ mcpFullName s t ++ "\" (" ++
      toString (mcpFullName s t).length ++ "文字)\n" ++
      "制限: " ++ toString mcpToolNameMaxLength ++ "文字" ++ "\n" ++
      "サーバー名: \"" ++ s ++ "\" (" ++ toString s.length ++ "文字)\n" ++
      "ツール名: \"" ++ t ++ "\" (",
      "文字)\n" ++ "プロジェクト名またはツール名を短くしてください。",
      by apply String.ext; simp [errMessage, String.data_append, List.append_assoc]⟩
  · exact ⟨"MCPツール名が64文字制限を超えています: \"" ++ mcpFullName s t ++ "\" (" ++
      toString (mcpFullName s t).length ++ "文字)\n" ++
      "制限: " ++ toString mcpToolNameMaxLength ++ "文字" ++ "\n" ++
      "サーバー名: \"" ++ s ++ "\" (" ++ toString s.length ++ "文字)\n" ++
      "ツール名: \"" ++ t ++ "\" (" ++ toString t.length ++ "文字)\n",
      "",
      by apply String.ext; simp [errMessage, String.data_append, List.append_assoc]⟩

/-- Concrete instance of claim C6: a 65-character composite name fails
with the full diagnostic message. -/
theorem validate_error_payload_witness :
    validateMcpToolNameLength "server" (String.mk (List.replicate 52 'x')) =
      Except.error (errMessage "server" (String.mk (List.replicate 52 'x'))) :=
  (validate_error_payload "server" (String.mk (List.replicate 52 'x')) (by decide)).1

/-! ## Title extraction inside metadata synthesis -/

/-- When no line of the list matches the heading pattern after trimming,
the title loop returns the empty string. -/
lemma extractTitleLoop_none {ls : List String}
    (h : ∀ line ∈ ls, headingMatch (jsTrim line.data) = none) :
    extractTitleLoop ls = "" := by
  induction ls with
  | nil => rfl
  | cons line rest ih =>
    have hl := h line (List.mem_cons_self line rest)
    have hrest := ih fun x hx => h x (List.mem_cons_of_mem line hx)
    show (if String.mk (jsTrim line.data) = "" then extractTitleLoop rest
      else match headingMatch (String.mk (jsTrim line.data)).data with
        | some g => if String.mk g = "" then extractTitleLoop rest
                    else String.mk (jsTrim g)
        | none => extractTitleLoop rest) = ""
    by_cases he : String.mk (jsTrim line.data) = ""
    · rw [if_pos he]; exact hrest
    · rw [if_neg he]
      have : (String.mk (jsTrim line.data)).data = jsTrim line.data := rfl
      rw [this, hl]
      exact hrest

/-- When no line of the content matches the heading pattern after
trimming, the extracted title is empty. -/
lemma extractTitleFromMarkdown_empty {content : String}
    (h : ∀ line ∈ linesOf content, headingMatch (jsTrim line.data) = none) :
    extractTitleFromMarkdown content = "" := by
  unfold extractTitleFromMarkdown
  by_cases he : content = ""
  · rw [if_pos he]
  · rw [if_neg he]
    exact extractTitleLoop_none h

/-- Claim C8: the title stored in a `ToolPath` is freshly re-extracted
from `document.content` alone — it is unchanged under any replacement of
the loader-supplied `title` field, equals the (empty-to-none) result of
`extractTitleFromMarkdown` on the content, and is absent whenever no
line of the content matches the heading pattern after trimming. -/
theorem createToolPath_title_fresh :
    (∀ (f : DocumentInfo) (d : String) (t : Option String),
      createToolPath ⟨f.path, f.content, t, f.description⟩ d =
        createToolPath f d) ∧
    (∀ (f : DocumentInfo) (d : String),
      (createToolPath f d).title =
        (if extractTitleFromMarkdown f.content = "" then none
         else some (extractTitleFromMarkdown f.content))) ∧
    (∀ (f : DocumentInfo) (d : String),
      (∀ line ∈ linesOf f.content,
        headingMatch (jsTrim line.data) = none) →
      (createToolPath f d).title = none) := by
  refine ⟨fun f d t => rfl, fun f d => rfl, fun f d h => ?_⟩
  show (if extractTitleFromMarkdown f.content = "" then none
    else some (extractTitleFromMarkdown f.content)) = none
  rw [extractTitleFromMarkdown_empty h]
  rfl

/-- Concrete instance of claim C8: a document whose content has no
heading line gets no title, regardless of its loader-supplied title. -/
theorem createToolPath_title_fresh_witness :
    (createToolPath ⟨"/a/b.md", "plain text\nno heading", some "Loader title", none⟩
      "/a").title = none :=
  createToolPath_title_fresh.2.2
    ⟨"/a/b.md", "plain text\nno heading", some "Loader title", none⟩
    "/a" (by decide)

/-! ## Metadata synthesis -/

/-- Claim C9: when validation passes, `generateMcpToolMetadata` returns
a metadata object whose `availablePaths` is exactly the input documents
mapped to `ToolPath`s, one per document in input order — so an empty
input yields an empty sequence and duplicate relative paths are kept. -/
theorem generateMcpToolMetadata_paths (p : String) (sr : SummarizationResult)
    (files : List DocumentInfo) (root : String)
    (h : exceptErr (validateMcpToolName p (generateToolName p)) = false) :
    generateMcpToolMetadata p sr files root =
      Except.ok ⟨generateToolName p, generateToolDescription sr,
        files.map fun f => createToolPath f root⟩ ∧
    (files.map fun f => createToolPath f root).length = files.length := by
  constructor
  · cases hv : validateMcpToolName p (generateToolName p) with
    | error e => rw [hv] at h; exact absurd h (by simp [exceptErr])
    | ok v => simp [generateMcpToolMetadata, hv]
  · exact List.length_map files _

/-- Concrete instance of claim C9: two documents with distinct absolute
paths but the same relative path under the root both persist as separate
entries, and validation passes. -/
theorem generateMcpToolMetadata_paths_witness :
    generateMcpToolMetadata "proj" ⟨"name", "summary", ["topic"]⟩
      [⟨"/a/b.md", "x", none, none⟩, ⟨"/a/./b.md", "y", none, none⟩] "/a" =
      Except.ok ⟨generateToolName "proj", generateToolDescription ⟨"name", "summary", ["topic"]⟩,
        [createToolPath ⟨"/a/b.md", "x", none, none⟩ "/a",
         createToolPath ⟨"/a/./b.md", "y", none, none⟩ "/a"]⟩ ∧
    (createToolPath ⟨"/a/b.md", "x", none, none⟩ "/a").path =
      (createToolPath ⟨"/a/./b.md", "y", none, none⟩ "/a").path ∧
    ("/a/b.md" : String) ≠ "/a/./b.md" :=
  ⟨(generateMcpToolMetadata_paths "proj" ⟨"name", "summary", ["topic"]⟩
      [⟨"/a/b.md", "x", none, none⟩, ⟨"/a/./b.md", "y", none, none⟩] "/a"
      (by decide)).1,
    by decide, by decide⟩

/-! ## The token-budgeted corpus packer -/

/-- The payload obtained by serializing every document of the list and
joining consecutive serialized documents with the fixed separator. -/
def payloadOf (l : List DocumentInfo) : String :=
  joinWith documentSep (l.map serializeDoc)

/-- The part of the payload contributed by the documents packed after
the first one: a separator and a serialized document for each. -/
def tailPayload : List DocumentInfo → String
  | [] => ""
  | d :: ds => documentSep ++ serializeDoc d ++ tailPayload ds

lemma docsCost_nil : docsCost [] = 0 := rfl

lemma docsCost_cons (d : DocumentInfo) (l : List DocumentInfo) :
    docsCost (d :: l) = estimateTokens (serializeDoc d) + docsCost l := by
  simp [docsCost]

lemma docsCost_append (a b : List DocumentInfo) :
    docsCost (a ++ b) = docsCost a + docsCost b := by
  simp [docsCost]

lemma docsCost_take_mono (l : List DocumentInfo) {m n : Nat} (h : m ≤ n) :
    docsCost (l.take m) ≤ docsCost (l.take n) := by
  have : n = m + (n - m) := by omega
  rw [this, List.take_add, docsCost_append]
  omega

lemma serializeDoc_length_ge (d : DocumentInfo) :
    13 ≤ (serializeDoc d).length := by
  unfold serializeDoc
  simp only [String.length_append]
  have h1 : ("File path: " : String).length = 11 := rfl
  have h2 : ("\n" : String).length = 1 := rfl
  omega

lemma serializeDoc_ne_empty (d : DocumentInfo) : serializeDoc d ≠ "" := by
  intro h
  have := congrArg String.length h
  have h0 : ("" : String).length = 0 := rfl
  have := serializeDoc_length_ge d
  omega

lemma append_ne_empty_left {c : String} (x : String) (h : c ≠ "") :
    c ++ x ≠ "" := by
  intro hc
  have hl := congrArg String.length hc
  simp only [String.length_append] at hl
  have h0 : ("" : String).length = 0 := rfl
  have : c.length ≠ 0 := by
    intro hz
    apply h
    apply String.ext
    have : c.data.length = 0 := hz
    simpa using List.length_eq_zero.mp this
  omega

lemma payloadOf_cons_ne {d : DocumentInfo} {l : List DocumentInfo}
    (h : l ≠ []) :
    payloadOf (d :: l) = serializeDoc d ++ documentSep ++ payloadOf l := by
  cases l with
  | nil => exact absurd rfl h
  | cons e rest => rfl

lemma payloadOf_eq_tail (d : DocumentInfo) (l : List DocumentInfo) :
    payloadOf (d :: l) = serializeDoc d ++ tailPayload l := by
  induction l generalizing d with
  | nil =>
    show serializeDoc d = serializeDoc d ++ ""
    apply String.ext
    simp [String.data_append]
  | cons e rest ih =>
    rw [payloadOf_cons_ne (by simp), ih e]
    show serializeDoc d ++ documentSep ++ (serializeDoc e ++ tailPayload rest) =
      serializeDoc d ++ (documentSep ++ serializeDoc e ++ tailPayload rest)
    apply String.ext
    simp [String.data_append, List.append_assoc]

/-- Loop invariant of the packing loop once at least one document is
packed: the loop extends the accumulated payload with a maximal budget
respecting prefix of the remaining documents, adding a separator before
each, and never enters the truncation branch again. -/
lemma summarizeAux_spec (ds : List DocumentInfo) :
    ∀ (c : String) (t u : Nat), c ≠ "" → t ≤ maxPromptTokens → 0 < u →
    ∃ k, k ≤ ds.length ∧
      summarizePackAux ds c t u =
        ⟨c ++ tailPayload (ds.take k), t + docsCost (ds.take k), u + k⟩ ∧
      t + docsCost (ds.take k) ≤ maxPromptTokens ∧
      (k < ds.length → maxPromptTokens < t + docsCost (ds.take (k + 1))) := by
  induction ds with
  | nil =>
    intro c t u hc ht hu
    refine ⟨0, Nat.le_refl 0, ?_, by simpa [docsCost_nil] using ht,
      by intro h; simp at h⟩
    show (⟨c, t, u⟩ : PackResult) = _
    simp only [List.take_nil, tailPayload, docsCost_nil, Nat.add_zero]
    congr 1
    apply String.ext
    simp [String.data_append]
  | cons d ds ih =>
    intro c t u hc ht hu
    by_cases hb : maxPromptTokens < t + estimateTokens (serializeDoc d)
    · refine ⟨0, Nat.zero_le _, ?_, ?_, ?_⟩
      · show summarizePackAux (d :: ds) c t u = _
        simp only [summarizePackAux]
        rw [if_pos hb, if_pos hu]
        simp only [List.take_zero, tailPayload, docsCost_nil, Nat.add_zero]
        congr 1
        apply String.ext
        simp [String.data_append]
      · simpa [docsCost_nil] using ht
      · intro _
        have h1 : (d :: ds).take 1 = [d] := rfl
        rw [h1, docsCost_cons, docsCost_nil]
        omega
    · have hrec : summarizePackAux (d :: ds) c t u =
          summarizePackAux ds (c ++ documentSep ++ serializeDoc d)
            (t + estimateTokens (serializeDoc d)) (u + 1) := by
        simp only [summarizePackAux]
        rw [if_neg hb, if_neg hc]
      obtain ⟨k, hk, heq, hcost, hnext⟩ :=
        ih (c ++ documentSep ++ serializeDoc d)
          (t + estimateTokens (serializeDoc d)) (u + 1)
          (append_ne_empty_left _ (append_ne_empty_left _ hc)) (by omega) (by omega)
      refine ⟨k + 1, by simpa using Nat.succ_le_succ hk, ?_, ?_, ?_⟩
      · rw [hrec, heq, List.take_succ_cons]
        congr 1
        · show c ++ documentSep ++ serializeDoc d ++ tailPayload (ds.take k) =
            c ++ (documentSep ++ serializeDoc d ++ tailPayload (ds.take k))
          apply String.ext
          simp [String.data_append, List.append_assoc]
        · rw [docsCost_cons]; omega
        · omega
      · rw [List.take_succ_cons, docsCost_cons]; omega
      · intro hlt
        have hlt2 : k < ds.length := by
          have := hlt
          simp only [List.length_cons] at this
          omega
        have := hnext hlt2
        rw [List.take_succ_cons, docsCost_cons]
        omega

/-- Claim C1 (amended: the sequence is empty or its first document fits
the ceiling; otherwise the truncation fallback of claim C2 applies): the
packer emits exactly the serialized documents of a prefix of the input,
in order, joined by the fixed separator, with the running estimate being
the summed cost of that prefix; the prefix cost respects the ceiling and
the prefix is the longest one that does. -/
theorem pack_longest_within_ceiling (docs : List DocumentInfo)
    (h : ∀ d, docs.head? = some d →
      estimateTokens (serializeDoc d) ≤ maxPromptTokens) :
    (summarizePack docs).combinedContent =
      payloadOf (docs.take (summarizePack docs).usedDocuments) ∧
    (summarizePack docs).totalTokens =
      docsCost (docs.take (summarizePack docs).usedDocuments) ∧
    (summarizePack docs).usedDocuments ≤ docs.length ∧
    docsCost (docs.take (summarizePack docs).usedDocuments) ≤ maxPromptTokens ∧
    (∀ n, n ≤ docs.length → docsCost (docs.take n) ≤ maxPromptTokens →
      n ≤ (summarizePack docs).usedDocuments) := by
  cases docs with
  | nil =>
    exact ⟨rfl, rfl, Nat.le_refl 0, Nat.zero_le _, fun n hn _ => hn⟩
  | cons d ds =>
    have hd := h d rfl
    have hstep : summarizePack (d :: ds) =
        summarizePackAux ds (serializeDoc d)
          (estimateTokens (serializeDoc d)) 1 := by
      show summarizePackAux (d :: ds) "" 0 0 = _
      simp only [summarizePackAux]
      rw [if_neg (by omega)]
      simp
    obtain ⟨k, hk, heq, hcost, hnext⟩ :=
      summarizeAux_spec ds (serializeDoc d) (estimateTokens (serializeDoc d)) 1
        (serializeDoc_ne_empty d) hd (by omega)
    rw [hstep, heq]
    dsimp only
    have htake : (d :: ds).take (1 + k) = d :: ds.take k := by
      have h1 : 1 + k = k + 1 := by omega
      rw [h1, List.take_succ_cons]
    refine ⟨?_, ?_, ?_, ?_, ?_⟩
    · show serializeDoc d ++ tailPayload (ds.take k) =
        payloadOf ((d :: ds).take (1 + k))
      rw [htake, payloadOf_eq_tail]
    · show estimateTokens (serializeDoc d) + docsCost (ds.take k) =
        docsCost ((d :: ds).take (1 + k))
      rw [htake, docsCost_cons]
    · show 1 + k ≤ (d :: ds).length
      simp only [List.length_cons]
      omega
    · rw [htake, docsCost_cons]
      omega
    · intro n hn hcostn
      by_contra hgt
      push_neg at hgt
      have hn' : n ≤ ds.length + 1 := by
        simpa [List.length_cons] using hn
      have hkd : k < ds.length := by omega
      have hx := hnext hkd
      have h2 : docsCost ((d :: ds).take (k + 2)) =
          estimateTokens (serializeDoc d) + docsCost (ds.take (k + 1)) := by
        rw [List.take_succ_cons, docsCost_cons]
      have hmono := docsCost_take_mono (d :: ds) (show k + 2 ≤ n by omega)
      omega

/-- Two small documents used as concrete packing inputs. -/
def sampleDocs : List DocumentInfo :=
  [⟨"/r/a.md", "hello world", none, none⟩,
   ⟨"/r/b.md", "more text here", some "T", none⟩]

/-- Concrete instance of claim C1: two documents whose combined cost is
under the ceiling are both packed, joined by the separator. -/
theorem pack_longest_within_ceiling_witness :
    docsCost sampleDocs ≤ maxPromptTokens ∧
    (summarizePack sampleDocs).combinedContent =
      payloadOf (sampleDocs.take (summarizePack sampleDocs).usedDocuments) :=
  ⟨by decide,
    (pack_longest_within_ceiling sampleDocs (by intro d hd; cases hd; decide)).1⟩

/-- A document whose serialized form alone exceeds the token ceiling:
its content is one Japanese character followed by 150,000 ASCII
characters, so its estimate is its character count, above the budget. -/
def cBigDoc : DocumentInfo :=
  ⟨"p", String.mk ('あ' :: List.replicate 150000 'a'), none, none⟩

lemma cBigDoc_japanese : hasJapanese (serializeDoc cBigDoc) = true := by
  unfold hasJapanese
  rw [List.any_eq_true]
  refine ⟨'あ', ?_, by decide⟩
  show 'あ' ∈ (serializeDoc cBigDoc).data
  simp only [serializeDoc, cBigDoc, titleInfo, String.data_append,
    List.mem_append, List.mem_cons]
  tauto

lemma cBigDoc_length : (serializeDoc cBigDoc).length = 150015 := by
  rw [serializeDoc]
  simp only [String.length_append]
  have h1 : ("File path: " : String).length = 11 := rfl
  have h2 : (cBigDoc.path).length = 1 := rfl
  have h3 : ("\n" : String).length = 1 := rfl
  have h4 : (titleInfo cBigDoc).length = 0 := rfl
  have h5 : (cBigDoc.content).length = 150001 := by
    show ('あ' :: List.replicate 150000 'a').length = 150001
    rw [List.length_cons, List.length_replicate]
  omega

lemma cBig_est : maxPromptTokens < estimateTokens (serializeDoc cBigDoc) := by
  unfold estimateTokens
  rw [cBigDoc_japanese]
  simp only [if_true]
  rw [cBigDoc_length]
  decide

/-- The truncation branch of the inline packer: when the first document
alone exceeds the ceiling, the payload is its serialized form cut to the
ceiling character count plus the fixed marker, one document is counted,
and the running token total is left at zero. -/
lemma summarizePack_trunc (d : DocumentInfo) (ds : List DocumentInfo)
    (h : maxPromptTokens < estimateTokens (serializeDoc d)) :
    summarizePack (d :: ds) =
      ⟨(serializeDoc d).take maxTruncChars ++ truncationMessage, 0, 1⟩ := by
  show summarizePackAux (d :: ds) "" 0 0 = _
  simp only [summarizePackAux]
  rw [if_pos (show maxPromptTokens < 0 + estimateTokens (serializeDoc d) by omega),
    if_neg (show ¬ (0 : Nat) < 0 by omega)]

/-- The truncation branch of the refactored packer: identical payload
and count, but the running token total is set to the ceiling. -/
lemma combine_trunc (d : DocumentInfo) (ds : List DocumentInfo)
    (h : maxPromptTokens < estimateTokens (serializeDoc d)) :
    combineDocumentsWithinTokenLimit (d :: ds) =
      ⟨(serializeDoc d).take maxTruncChars ++ truncationMessage,
        10 * maxTruncChars, 1⟩ := by
  show combineAux (d :: ds) "" 0 0 = _
  simp only [combineAux]
  rw [if_pos (show maxPromptTokens < 0 + estimateTokens (serializeDoc d) by omega),
    if_neg (show ¬ (0 : Nat) < 0 by omega)]

/-- Counterexample to claim C1 as stated universally: on a sequence
whose single document exceeds the ceiling, the longest prefix with cost
within the ceiling is the empty one, yet the packer reports one used
document and a non-empty payload. -/
theorem pack_longest_counterexample :
    maxPromptTokens < docsCost [cBigDoc] ∧
    (summarizePack [cBigDoc]).usedDocuments = 1 ∧
    (summarizePack [cBigDoc]).combinedContent ≠ payloadOf [] := by
  have hc : docsCost [cBigDoc] = estimateTokens (serializeDoc cBigDoc) := by
    rw [docsCost_cons, docsCost_nil, Nat.add_zero]
  have ht := summarizePack_trunc cBigDoc [] cBig_est
  refine ⟨by rw [hc]; exact cBig_est, by rw [ht], ?_⟩
  rw [ht]
  intro hcontra
  have hlen := congrArg String.length hcontra
  simp only [String.length_append] at hlen
  have h1 : truncationMessage.length = 45 := rfl
  have h2 : (payloadOf ([] : List DocumentInfo)).length = 0 := rfl
  omega

/-- Claim C2: when the very first document alone exceeds the ceiling,
the packer returns exactly one used document, with payload the
serialized first document truncated to the ceiling character count
followed by the fixed truncation marker, so the payload ends with the
marker. -/
theorem pack_first_oversized (d : DocumentInfo) (ds : List DocumentInfo)
    (h : maxPromptTokens < estimateTokens (serializeDoc d)) :
    summarizePack (d :: ds) =
      ⟨(serializeDoc d).take maxTruncChars ++ truncationMessage, 0, 1⟩ ∧
    (summarizePack (d :: ds)).usedDocuments = 1 ∧
    ∃ pre, (summarizePack (d :: ds)).combinedContent =
      pre ++ truncationMessage := by
  have ht := summarizePack_trunc d ds h
  exact ⟨ht, by rw [ht],
    ⟨(serializeDoc d).take maxTruncChars, by rw [ht]⟩⟩

/-- Concrete instance of claim C2: the oversized document is truncated
and counted once. -/
theorem pack_first_oversized_witness :
    maxPromptTokens < estimateTokens (serializeDoc cBigDoc) ∧
    (summarizePack [cBigDoc]).usedDocuments = 1 :=
  ⟨cBig_est, (pack_first_oversized cBigDoc [] cBig_est).2.1⟩

/-- After the first packed document, the two packing loops agree
step by step. -/
lemma packAux_agree (ds : List DocumentInfo) :
    ∀ c t u, 0 < u → summarizePackAux ds c t u = combineAux ds c t u := by
  induction ds with
  | nil => intro c t u _; rfl
  | cons d ds ih =>
    intro c t u hu
    simp only [summarizePackAux, combineAux]
    by_cases hb : maxPromptTokens < t + estimateTokens (serializeDoc d)
    · rw [if_pos hb, if_pos hb, if_pos hu, if_pos hu]
    · rw [if_neg hb, if_neg hb]
      exact ih _ _ _ (by omega)

/-- Claim C10 (amended: the payload and used count always agree, and the
whole result including the running token estimate agrees whenever the
truncation branch is not taken; in the truncation branch the inline
packer reports a zero estimate while the refactored one reports the
ceiling). -/
theorem pack_refactor_equiv (docs : List DocumentInfo) :
    (summarizePack docs).combinedContent =
      (combineDocumentsWithinTokenLimit docs).combinedContent ∧
    (summarizePack docs).usedDocuments =
      (combineDocumentsWithinTokenLimit docs).usedDocuments ∧
    ((∀ d, docs.head? = some d →
        estimateTokens (serializeDoc d) ≤ maxPromptTokens) →
      summarizePack docs = combineDocumentsWithinTokenLimit docs) := by
  cases docs with
  | nil => exact ⟨rfl, rfl, fun _ => rfl⟩
  | cons d ds =>
    by_cases hb : maxPromptTokens < estimateTokens (serializeDoc d)
    · have h1 := summarizePack_trunc d ds hb
      have h2 := combine_trunc d ds hb
      refine ⟨by rw [h1, h2], by rw [h1, h2], fun hctr => ?_⟩
      exact absurd (hctr d rfl) (by omega)
    · have heq : summarizePack (d :: ds) =
          combineDocumentsWithinTokenLimit (d :: ds) := by
        show summarizePackAux (d :: ds) "" 0 0 = combineAux (d :: ds) "" 0 0
        simp only [summarizePackAux, combineAux]
        have hng : ¬ maxPromptTokens < 0 + estimateTokens (serializeDoc d) := by
          omega
        rw [if_neg hng, if_neg hng]
        exact packAux_agree ds _ _ _ (show (0 : Nat) < 0 + 1 by omega)
      exact ⟨by rw [heq], by rw [heq], fun _ => heq⟩

/-- Counterexample to claim C10 as stated: on a single oversized
document the two packers return different running token estimates
(zero for the inline loop, the full ceiling for the refactored one),
so the results differ. -/
theorem pack_refactor_counterexample :
    (summarizePack [cBigDoc]).totalTokens = 0 ∧
    (combineDocumentsWithinTokenLimit [cBigDoc]).totalTokens =
      10 * maxTruncChars ∧
    summarizePack [cBigDoc] ≠ combineDocumentsWithinTokenLimit [cBigDoc] := by
  have h1 := summarizePack_trunc cBigDoc [] cBig_est
  have h2 := combine_trunc cBigDoc [] cBig_est
  refine ⟨by rw [h1], by rw [h2], ?_⟩
  rw [h1, h2]
  intro hcontra
  have hT := congrArg PackResult.totalTokens hcontra
  simp [maxTruncChars] at hT

/-- Concrete instance of claim C10 (amended): on two within-budget
documents the packers agree exactly. -/
theorem pack_refactor_equiv_witness :
    summarizePack sampleDocs = combineDocumentsWithinTokenLimit sampleDocs :=
  (pack_refactor_equiv sampleDocs).2.2 (by intro d hd; cases hd; decide)

/-! ## Fenced-block extraction from the LLM response -/

lemma threeTicks_ticks (m : List Char) :
    threeTicks (tickChar :: tickChar :: tickChar :: m) = true := by
  simp [threeTicks]

lemma threeTicks_cons_ne {c : Char} (h : c ≠ tickChar) (l : List Char) :
    threeTicks (c :: l) = false := by
  cases l with
  | nil => rfl
  | cons b m =>
    cases m with
    | nil => rfl
    | cons e m2 => simp [threeTicks, h]

lemma threeTicks_destruct {l : List Char} (h : threeTicks l = true) :
    ∃ m, l = tickChar :: tickChar :: tickChar :: m := by
  match l with
  | [] => simp [threeTicks] at h
  | [a] => simp [threeTicks] at h
  | [a, b] => simp [threeTicks] at h
  | a :: b :: e :: m =>
    simp only [threeTicks, Bool.and_eq_true, decide_eq_true_eq] at h
    obtain ⟨⟨h1, h2⟩, h3⟩ := h
    exact ⟨m, by rw [h1, h2, h3]⟩

lemma splitAtFence_append (body post : List Char)
    (hb : ∀ c ∈ body, c ≠ tickChar) :
    splitAtFence (body ++ tickChar :: tickChar :: tickChar :: post) =
      some (body, post) := by
  induction body with
  | nil =>
    show splitAtFence (tickChar :: tickChar :: tickChar :: post) = some ([], post)
    simp only [splitAtFence]
    rw [if_pos (threeTicks_ticks post)]
    rfl
  | cons c body ih =>
    have hc : c ≠ tickChar := hb c (List.mem_cons_self c body)
    show splitAtFence (c :: (body ++ tickChar :: tickChar :: tickChar :: post)) =
      some (c :: body, post)
    simp only [splitAtFence]
    rw [threeTicks_cons_ne hc]
    simp only [Bool.false_eq_true, if_false]
    rw [ih fun x hx => hb x (List.mem_cons_of_mem c hx)]

lemma splitAtFence_decomp : ∀ {l a b : List Char},
    splitAtFence l = some (a, b) →
    l = a ++ tickChar :: tickChar :: tickChar :: b := by
  intro l
  induction l with
  | nil => intro a b h; simp [splitAtFence] at h
  | cons c rest ih =>
    intro a b h
    simp only [splitAtFence] at h
    by_cases ht : threeTicks (c :: rest) = true
    · rw [if_pos ht] at h
      obtain ⟨m, hm⟩ := threeTicks_destruct ht
      have hc : c = tickChar := by
        have := congrArg (fun l => l.head?) hm
        simpa using this
      have hrest : rest = tickChar :: tickChar :: m := by
        have := congrArg (fun l => l.tail) hm
        simpa using this
      simp only [Option.some.injEq, Prod.mk.injEq] at h
      obtain ⟨ha, hbv⟩ := h
      rw [← ha, ← hbv, hc, hrest]
      show tickChar :: tickChar :: tickChar :: m =
        [] ++ tickChar :: tickChar :: tickChar :: ((tickChar :: tickChar :: m).drop 2)
      simp
    · rw [if_neg ht] at h
      cases hsp : splitAtFence rest with
      | none => rw [hsp] at h; simp at h
      | some pq =>
        rw [hsp] at h
        obtain ⟨a', b'⟩ := pq
        simp only [Option.some.injEq, Prod.mk.injEq] at h
        obtain ⟨ha, hbv⟩ := h
        rw [← ha, ← hbv]
        show c :: rest = (c :: a') ++ tickChar :: tickChar :: tickChar :: b'
        rw [List.cons_append, ih hsp]

lemma startsWithJson_destruct {l : List Char}
    (h : startsWithJson l = true) :
    ∃ r, l = 'j' :: 's' :: 'o' :: 'n' :: r := by
  match l with
  | [] => simp [startsWithJson] at h
  | [a] => simp [startsWithJson] at h
  | [a, b] => simp [startsWithJson] at h
  | [a, b, c] => simp [startsWithJson] at h
  | a :: b :: c :: d :: r =>
    simp only [startsWithJson, Bool.and_eq_true, decide_eq_true_eq] at h
    obtain ⟨⟨⟨h1, h2⟩, h3⟩, h4⟩ := h
    exact ⟨r, by rw [h1, h2, h3, h4]⟩

lemma startsWithJson_ticks (body post : List Char)
    (h : startsWithJson body = false) :
    startsWithJson (body ++ tickChar :: tickChar :: tickChar :: post) = false := by
  have tj : decide (tickChar = 'j') = false := by decide
  have ts : decide (tickChar = 's') = false := by decide
  have to2 : decide (tickChar = 'o') = false := by decide
  have tn : decide (tickChar = 'n') = false := by decide
  match body with
  | [] =>
    cases post with
    | nil => rfl
    | cons p ps => simp [startsWithJson, tj]
  | [c1] => simp [startsWithJson, ts]
  | [c1, c2] => simp [startsWithJson, to2]
  | [c1, c2, c3] => simp [startsWithJson, tn]
  | c1 :: c2 :: c3 :: c4 :: rest =>
    simp only [startsWithJson] at h
    simpa [startsWithJson] using h

lemma extractFenced_skip {pre : List Char} (l : List Char)
    (hp : ∀ c ∈ pre, c ≠ tickChar) :
    extractFenced (pre ++ l) = extractFenced l := by
  induction pre with
  | nil => rfl
  | cons c pre ih =>
    show extractFenced (c :: (pre ++ l)) = extractFenced l
    simp only [extractFenced]
    rw [threeTicks_cons_ne (hp c (List.mem_cons_self c pre))]
    simp only [Bool.false_eq_true, if_false]
    exact ih fun x hx => hp x (List.mem_cons_of_mem c hx)

/-- One unfolding step of the fence scanner. -/
lemma extractFenced_cons (c : Char) (rest : List Char) :
    extractFenced (c :: rest) =
      if threeTicks (c :: rest) then
        match splitAtFence (if startsWithJson (rest.drop 2)
          then (rest.drop 2).drop 4 else rest.drop 2) with
        | some (body, _) => some (jsTrim body)
        | none => extractFenced rest
      else extractFenced rest := rfl

/-- The scanner at an opening fence immediately tagged `json`: the
capture is the trimmed text up to the next fence. -/
lemma extractFenced_fence_json (body post : List Char)
    (hb : ∀ c ∈ body, c ≠ tickChar) :
    extractFenced (tickChar :: tickChar :: tickChar :: ('j' :: 's' :: 'o' :: 'n' ::
      (body ++ tickChar :: tickChar :: tickChar :: post))) =
      some (jsTrim body) := by
  rw [extractFenced_cons, if_pos (threeTicks_ticks _)]
  have hdrop : (tickChar :: tickChar :: ('j' :: 's' :: 'o' :: 'n' ::
      (body ++ tickChar :: tickChar :: tickChar :: post)) : List Char).drop 2 =
      'j' :: 's' :: 'o' :: 'n' :: (body ++ tickChar :: tickChar :: tickChar :: post) := rfl
  rw [hdrop]
  have hsw : startsWithJson ('j' :: 's' :: 'o' :: 'n' ::
      (body ++ tickChar :: tickChar :: tickChar :: post)) = true := by
    simp [startsWithJson]
  rw [hsw]
  simp only [if_true]
  have hdrop4 : ('j' :: 's' :: 'o' :: 'n' ::
      (body ++ tickChar :: tickChar :: tickChar :: post) : List Char).drop 4 =
      body ++ tickChar :: tickChar :: tickChar :: post := rfl
  rw [hdrop4, splitAtFence_append body post hb]

/-- The scanner at an opening fence not tagged `json`. -/
lemma extractFenced_fence (body post : List Char)
    (hb : ∀ c ∈ body, c ≠ tickChar)
    (hjson : startsWithJson (body ++ tickChar :: tickChar :: tickChar :: post) = false) :
    extractFenced (tickChar :: tickChar :: tickChar ::
      (body ++ tickChar :: tickChar :: tickChar :: post)) =
      some (jsTrim body) := by
  rw [extractFenced_cons, if_pos (threeTicks_ticks _)]
  have hdrop : (tickChar :: tickChar ::
      (body ++ tickChar :: tickChar :: tickChar :: post) : List Char).drop 2 =
      body ++ tickChar :: tickChar :: tickChar :: post := rfl
  rw [hdrop, hjson]
  simp only [Bool.false_eq_true, if_false]
  rw [splitAtFence_append body post hb]

/-- Whenever the scanner finds a fence, the text decomposes into prose,
an opening triple backtick, an interior, a closing triple backtick and a
remainder. -/
lemma extractFenced_some_decomp : ∀ {l i : List Char},
    extractFenced l = some i →
    ∃ a b c, l = a ++ tickChar :: tickChar :: tickChar ::
      (b ++ tickChar :: tickChar :: tickChar :: c) := by
  intro l
  induction l with
  | nil => intro i h; simp [extractFenced] at h
  | cons c rest ih =>
    intro i h
    rw [extractFenced_cons] at h
    by_cases ht : threeTicks (c :: rest) = true
    · rw [if_pos ht] at h
      obtain ⟨m, hm⟩ := threeTicks_destruct ht
      have hc : c = tickChar := by
        have := congrArg List.head? hm
        simpa using this
      have hrest : rest = tickChar :: tickChar :: m := by
        have := congrArg List.tail hm
        simpa using this
      rw [hrest] at h
      rw [show ((tickChar :: tickChar :: m : List Char).drop 2) = m from rfl] at h
      by_cases hsw : startsWithJson m = true
      · rw [if_pos hsw] at h
        obtain ⟨r, hr⟩ := startsWithJson_destruct hsw
        rw [hr] at h
        rw [show (('j' :: 's' :: 'o' :: 'n' :: r : List Char).drop 4) = r from rfl] at h
        cases hsp : splitAtFence r with
        | some pq =>
          obtain ⟨bb, cc⟩ := pq
          have hdec := splitAtFence_decomp hsp
          refine ⟨[], 'j' :: 's' :: 'o' :: 'n' :: bb, cc, ?_⟩
          rw [hc, hrest, hr, hdec]
          simp
        | none =>
          rw [hsp] at h
          have h2 : extractFenced rest = some i := by
            rw [hrest, hr]; exact h
          obtain ⟨a, b, c', hd⟩ := ih h2
          exact ⟨c :: a, b, c', by rw [hd, List.cons_append]⟩
      · rw [if_neg hsw] at h
        cases hsp : splitAtFence m with
        | some pq =>
          obtain ⟨bb, cc⟩ := pq
          have hdec := splitAtFence_decomp hsp
          refine ⟨[], bb, cc, ?_⟩
          rw [hc, hrest, hdec]
          simp
        | none =>
          rw [hsp] at h
          have h2 : extractFenced rest = some i := by
            rw [hrest]; exact h
          obtain ⟨a, b, c', hd⟩ := ih h2
          exact ⟨c :: a, b, c', by rw [hd, List.cons_append]⟩
    · rw [if_neg ht] at h
      obtain ⟨a, b, c', hd⟩ := ih h
      exact ⟨c :: a, b, c', by rw [hd, List.cons_append]⟩

/-- Claim C7: on a response consisting of prose, a fence optionally
tagged `json` around an interior, and trailing text, the parser input is
exactly the whitespace-trimmed interior of the first fence (prose and
interior fence-marker-free, and an untagged interior not starting with
the tag letters); on a response with no fenced block the raw text is
parsed directly. -/
theorem summarize_fence_extraction :
    (∀ pre j body post : String,
      (∀ c ∈ pre.data, c ≠ tickChar) →
      (∀ c ∈ body.data, c ≠ tickChar) →
      (j = "json" ∨ (j = "" ∧ startsWithJson body.data = false)) →
      parsableText (pre ++ "```" ++ j ++ body ++ "```" ++ post) =
        String.mk (jsTrim body.data)) ∧
    (∀ s : String,
      (¬ ∃ a b c, s.data = a ++ tickChar :: tickChar :: tickChar ::
        (b ++ tickChar :: tickChar :: tickChar :: c)) →
      parsableText s = s) := by
  constructor
  · intro pre j body post hpre hbody hj
    have hticks : ("```" : String).data = [tickChar, tickChar, tickChar] := rfl
    have hdata : (pre ++ "```" ++ j ++ body ++ "```" ++ post).data =
        pre.data ++ (tickChar :: tickChar :: tickChar ::
          (j.data ++ (body.data ++ tickChar :: tickChar :: tickChar :: post.data))) := by
      simp [String.data_append, hticks, List.append_assoc]
      decide
    have hres : extractFenced (pre ++ "```" ++ j ++ body ++ "```" ++ post).data =
        some (jsTrim body.data) := by
      rw [hdata, extractFenced_skip _ hpre]
      rcases hj with hj | ⟨hj, hsw⟩
      · subst hj
        show extractFenced (tickChar :: tickChar :: tickChar ::
          ('j' :: 's' :: 'o' :: 'n' ::
            (body.data ++ tickChar :: tickChar :: tickChar :: post.data))) = _
        exact extractFenced_fence_json body.data post.data hbody
      · subst hj
        show extractFenced (tickChar :: tickChar :: tickChar ::
          (body.data ++ tickChar :: tickChar :: tickChar :: post.data)) = _
        exact extractFenced_fence body.data post.data hbody
          (startsWithJson_ticks _ _ hsw)
    unfold parsableText
    rw [hres]
  · intro s hno
    have hp : parsableText s = match extractFenced s.data with
      | some interior => String.mk interior
      | none => s := rfl
    cases hf : extractFenced s.data with
    | none => rw [hp, hf]
    | some i => exact absurd (extractFenced_some_decomp hf) hno

/-- Concrete instance of claim C7: a `json`-tagged fence surrounded by
prose is reduced to its trimmed interior. -/
theorem summarize_fence_extraction_witness :
    parsableText ("Here is the result: " ++ "```" ++ "json" ++
      "\n key: value \n" ++ "```" ++ " trailing prose") =
      String.mk (jsTrim ("\n key: value \n" : String).data) ∧
    String.mk (jsTrim ("\n key: value \n" : String).data) = "key: value" :=
  ⟨summarize_fence_extraction.1 "Here is the result: " "json"
      "\n key: value \n" " trailing prose" (by decide) (by decide) (Or.inl rfl),
    by decide⟩

end McpDocs
